import Mathlib

/-!
Shallow embedding of the Level-6 rolling-statistics engine
(src/Level-06/Level-6.py): the class RealTimeAnalytics with its
update / mean_price / volatility / sharpe methods, and the
process_stream driver.

Prices and returns are modelled as exact rationals; the square roots
taken by volatility and sharpe live in the reals.  The two
collections.deque buffers (maxlen = window) are modelled as lists in
arrival order, index 0 being the oldest element; the not-a-number
sentinel np.nan returned on insufficient data is modelled as none.
-/

/-- State of the Python class RealTimeAnalytics: the fields set in
its constructor (window, the two deque buffers, the two running sums). -/
structure RealTimeAnalytics where
  window : ℕ
  prices : List ℚ
  returns : List ℚ
  sum_prices : ℚ
  sum_returns : ℚ
  deriving Repr, DecidableEq

/-- The constructor: empty buffers, zero running sums. -/
def init (window : ℕ) : RealTimeAnalytics :=
  { window := window, prices := [], returns := [], sum_prices := 0, sum_returns := 0 }

/-- Appending to a collections.deque of maxlen w: when the buffer is
already at capacity the oldest (leftmost) element is evicted. -/
def dqAppend (w : ℕ) (l : List ℚ) (x : ℚ) : List ℚ :=
  if l.length = w then l.tail ++ [x] else l ++ [x]

/-- Total version of the Python indexings deque[0], deque[-1]
(defaulting, which the source never hits on the paths it executes). -/
def headD0 (l : List ℚ) : ℚ := l.headD 0

/-- Total version of deque[-1] (the most recently appended element). -/
def lastD0 (l : List ℚ) : ℚ := l.getLast?.getD 0

/-- RealTimeAnalytics.update(price): evict-and-append on the price
deque with the running price sum kept in sync, then, if the price
deque now holds more than one element, the simple return
prices[-1]/prices[-2] - 1 is pushed onto the return deque with the
running return sum kept in sync. -/
def update (s : RealTimeAnalytics) (price : ℚ) : RealTimeAnalytics :=
  let sp := (if s.prices.length = s.window then s.sum_prices - headD0 s.prices else s.sum_prices)
    + price
  let pr := dqAppend s.window s.prices price
  if 1 < pr.length then
    let ret := lastD0 pr / lastD0 pr.dropLast - 1
    { window := s.window, prices := pr, sum_prices := sp,
      returns := dqAppend s.window s.returns ret,
      sum_returns :=
        (if s.returns.length = s.window then s.sum_returns - headD0 s.returns
         else s.sum_returns) + ret }
  else
    { window := s.window, prices := pr, sum_prices := sp,
      returns := s.returns, sum_returns := s.sum_returns }

/-- An accumulator freshly constructed with window w after the calls
update(p) for p in ps, in order. -/
def run (w : ℕ) (ps : List ℚ) : RealTimeAnalytics :=
  ps.foldl update (init w)

/-- np.mean over a list of rationals (0 on the empty list, which the
source never queries). -/
def npMean (xs : List ℚ) : ℚ := xs.sum / xs.length

/-- The square of np.std(xs, ddof=1): Bessel-corrected sample
variance, sum of squared deviations from the mean divided by n - 1. -/
def npVarSample (xs : List ℚ) : ℚ :=
  (xs.map (fun x => (x - npMean xs) ^ 2)).sum / ((xs.length : ℚ) - 1)

/-- np.std(xs, ddof=1) itself: the real square root of the
Bessel-corrected sample variance. -/
noncomputable def npStdSample (xs : List ℚ) : ℝ :=
  Real.sqrt ((npVarSample xs : ℚ) : ℝ)

/-- RealTimeAnalytics.mean_price: running price sum divided by the
price-buffer length, or the nan sentinel (none) on an empty buffer. -/
def mean_price (s : RealTimeAnalytics) : Option ℚ :=
  if s.prices = [] then none else some (s.sum_prices / (s.prices.length : ℚ))

/-- RealTimeAnalytics.volatility: nan (none) with fewer than two
stored returns, otherwise the annualized sample standard deviation
np.std(returns, ddof=1) * sqrt 252. -/
noncomputable def volatility (s : RealTimeAnalytics) : Option ℝ :=
  if s.returns.length < 2 then none
  else some (npStdSample s.returns * Real.sqrt 252)

/-- The per-period excess returns sharpe builds: every stored return
shifted down by risk_free / 252. -/
def excessOf (s : RealTimeAnalytics) (risk_free : ℚ) : List ℚ :=
  s.returns.map (fun r => r - risk_free / 252)

open Classical in
/-- RealTimeAnalytics.sharpe(risk_free): nan (none) with fewer than
two stored returns; otherwise sqrt 252 * mean(excess) / std(excess)
with std = np.std(excess, ddof=1), guarded to nan when that standard
deviation is zero. -/
noncomputable def sharpe (s : RealTimeAnalytics) (risk_free : ℚ) : Option ℝ :=
  if s.returns.length < 2 then none
  else
    let excess := excessOf s risk_free
    let vol : ℝ := npStdSample excess
    if vol = 0 then none
    else some (Real.sqrt 252 * ((npMean excess : ℚ) : ℝ) / vol)

/-- One row of process_stream output: the per-tick snapshot
(mean_price, volatility, sharpe) taken right after an update. -/
noncomputable def snapshot (s : RealTimeAnalytics) : Option ℚ × Option ℝ × Option ℝ :=
  (mean_price s, volatility s, sharpe s (2 / 100))

/-- process_stream, with the externally fetched closing-price series
as input: an empty series aborts with the fatal message before the
accumulator is even constructed; otherwise every price is fed to
update in order and one snapshot per price is collected. -/
noncomputable def process_stream (window : ℕ) (prices : List ℚ) :
    Except String (List (Option ℚ × Option ℝ × Option ℝ)) :=
  if prices = [] then Except.error "No data returned."
  else
    Except.ok
      ((prices.foldl
        (fun acc p =>
          let s := update acc.1 p
          (s, acc.2 ++ [snapshot s]))
        (init window, [])).2)

/-- The method call RealTimeAnalytics.mean_price as a state
transformer: the body reads fields only and assigns none, so the
post-state is the pre-state. -/
def mean_price_call (s : RealTimeAnalytics) : Option ℚ × RealTimeAnalytics :=
  (mean_price s, s)

/-- The method call RealTimeAnalytics.volatility as a state
transformer: the body reads self.returns only and assigns nothing. -/
noncomputable def volatility_call (s : RealTimeAnalytics) : Option ℝ × RealTimeAnalytics :=
  (volatility s, s)

/-- The method call RealTimeAnalytics.sharpe as a state transformer:
the body reads self.returns only and assigns nothing. -/
noncomputable def sharpe_call (s : RealTimeAnalytics) (risk_free : ℚ) :
    Option ℝ × RealTimeAnalytics :=
  (sharpe s risk_free, s)

/-- States an accumulator can actually be in: freshly constructed
with some positive window and driven only by update calls. -/
def Reachable (s : RealTimeAnalytics) : Prop :=
  ∃ w ps, 1 ≤ w ∧ s = run w ps

/-- The suffix of the last w elements of a list (all of it when it is
shorter than w): the contents a maxlen-w deque ends up with. -/
def lastN (w : ℕ) (l : List ℚ) : List ℚ := l.drop (l.length - w)

/-- The arrival-order consecutive-pair simple returns of a price
sequence: element i is ps[i+1]/ps[i] - 1. -/
def retSeq : List ℚ → List ℚ
  | [] => []
  | [_] => []
  | a :: b :: t => (b / a - 1) :: retSeq (b :: t)

/-! ### List plumbing -/

lemma lastN_nil (w : ℕ) : lastN w [] = [] := by
  simp [lastN]

lemma length_lastN (w : ℕ) (l : List ℚ) : (lastN w l).length = min l.length w := by
  simp [lastN]
  omega

lemma lastN_eq_self {w : ℕ} {l : List ℚ} (h : l.length ≤ w) : lastN w l = l := by
  simp [lastN, Nat.sub_eq_zero_of_le h]

lemma dqAppend_lastN {w : ℕ} (hw : 1 ≤ w) (l : List ℚ) (x : ℚ) :
    dqAppend w (lastN w l) x = lastN w (l ++ [x]) := by
  rcases le_or_lt w l.length with h | h
  · have hlen : (lastN w l).length = w := by rw [length_lastN]; omega
    have h1 : lastN w (l ++ [x]) = l.drop (l.length + 1 - w) ++ [x] := by
      rw [lastN, List.length_append]
      simp only [List.length_cons, List.length_nil]
      rw [List.drop_append_of_le_length (by omega)]
    rw [dqAppend, if_pos hlen, lastN, List.tail_drop, h1]
    congr 2
    omega
  · have hlen : (lastN w l).length ≠ w := by rw [length_lastN]; omega
    rw [dqAppend, if_neg hlen, lastN_eq_self (le_of_lt h), lastN_eq_self]
    rw [List.length_append]
    simp only [List.length_cons, List.length_nil]
    omega

lemma dqAppend_sum {w : ℕ} (hw : 1 ≤ w) {l : List ℚ} (x : ℚ) :
    (dqAppend w l x).sum = (if l.length = w then l.sum - headD0 l else l.sum) + x := by
  rw [dqAppend]
  by_cases h : l.length = w
  · rw [if_pos h, if_pos h]
    cases l with
    | nil => simp at h; omega
    | cons a t =>
      simp only [List.tail_cons, List.sum_append, List.sum_cons, List.sum_nil, headD0,
        List.headD_cons]
      ring
  · rw [if_neg h, if_neg h, List.sum_append]
    simp

lemma length_dqAppend {w : ℕ} (hw : 1 ≤ w) {l : List ℚ} (hl : l.length ≤ w) (x : ℚ) :
    (dqAppend w l x).length = min (l.length + 1) w := by
  rw [dqAppend]
  by_cases h : l.length = w
  · rw [if_pos h, List.length_append, List.length_tail]
    simp only [List.length_cons, List.length_nil]
    omega
  · rw [if_neg h, List.length_append]
    simp only [List.length_cons, List.length_nil]
    omega

lemma lastD0_concat (l : List ℚ) (x : ℚ) : lastD0 (l ++ [x]) = x := by
  simp [lastD0, List.getLast?_concat]

lemma lastD0_dqAppend (w : ℕ) (l : List ℚ) (x : ℚ) : lastD0 (dqAppend w l x) = x := by
  rw [dqAppend]
  split <;> exact lastD0_concat _ _

lemma dropLast_dqAppend (w : ℕ) (l : List ℚ) (x : ℚ) :
    (dqAppend w l x).dropLast = if l.length = w then l.tail else l := by
  rw [dqAppend]
  split <;> simp [List.dropLast_concat]

lemma lastD0_tail {l : List ℚ} (h : 2 ≤ l.length) : lastD0 l.tail = lastD0 l := by
  cases l with
  | nil => simp at h
  | cons a t =>
    cases t with
    | nil => simp at h
    | cons b t2 => simp [lastD0, List.getLast?_cons_cons]

lemma getLast?_drop {l : List ℚ} : ∀ {k : ℕ}, k < l.length → (l.drop k).getLast? = l.getLast? := by
  induction l with
  | nil => intro k hk; simp at hk
  | cons a t ih =>
    intro k hk
    cases k with
    | zero => rfl
    | succ k =>
      have hk2 : k < t.length := by
        simp only [List.length_cons] at hk
        omega
      rw [List.drop_succ_cons, ih hk2]
      cases t with
      | nil => simp at hk2
      | cons b t2 => rw [List.getLast?_cons_cons]

lemma lastD0_lastN {w : ℕ} (hw : 1 ≤ w) {l : List ℚ} (hl : l ≠ []) :
    lastD0 (lastN w l) = lastD0 l := by
  have hpos : 0 < l.length := List.length_pos.mpr hl
  have hlt : l.length - w < l.length := by omega
  simp [lastN, lastD0, getLast?_drop hlt]

lemma retSeq_concat : ∀ (ps : List ℚ) (p : ℚ), ps ≠ [] →
    retSeq (ps ++ [p]) = retSeq ps ++ [p / lastD0 ps - 1] := by
  intro ps
  induction ps with
  | nil => intro p h; exact absurd rfl h
  | cons a t ih =>
    intro p _
    cases t with
    | nil => simp [retSeq, lastD0]
    | cons b t2 =>
      have h3 : (a :: b :: t2) ++ [p] = a :: ((b :: t2) ++ [p]) := by simp
      have h2 : (b :: t2) ++ [p] = b :: (t2 ++ [p]) := by simp
      rw [h3, h2, retSeq, ← h2, ih p (by simp)]
      simp [retSeq, lastD0, List.getLast?_cons_cons]

lemma length_retSeq : ∀ ps : List ℚ, (retSeq ps).length = ps.length - 1 := by
  intro ps
  induction ps with
  | nil => rfl
  | cons a t ih =>
    cases t with
    | nil => rfl
    | cons b t2 =>
      simp only [retSeq, List.length_cons] at ih ⊢
      omega

/-! ### Field-level description of update -/

lemma update_window (s : RealTimeAnalytics) (p : ℚ) : (update s p).window = s.window := by
  simp only [update]
  split <;> rfl

lemma update_prices (s : RealTimeAnalytics) (p : ℚ) :
    (update s p).prices = dqAppend s.window s.prices p := by
  simp only [update]
  split <;> rfl

lemma update_sum_prices (s : RealTimeAnalytics) (p : ℚ) :
    (update s p).sum_prices =
      (if s.prices.length = s.window then s.sum_prices - headD0 s.prices else s.sum_prices) + p := by
  simp only [update]
  split <;> rfl

lemma update_returns_pos (s : RealTimeAnalytics) (p : ℚ)
    (h : 1 < (dqAppend s.window s.prices p).length) :
    (update s p).returns = dqAppend s.window s.returns
      (lastD0 (dqAppend s.window s.prices p) /
        lastD0 (dqAppend s.window s.prices p).dropLast - 1) := by
  simp only [update]
  rw [if_pos h]

lemma update_returns_neg (s : RealTimeAnalytics) (p : ℚ)
    (h : ¬ 1 < (dqAppend s.window s.prices p).length) :
    (update s p).returns = s.returns := by
  simp only [update]
  rw [if_neg h]

lemma update_sum_returns_pos (s : RealTimeAnalytics) (p : ℚ)
    (h : 1 < (dqAppend s.window s.prices p).length) :
    (update s p).sum_returns =
      (if s.returns.length = s.window then s.sum_returns - headD0 s.returns else s.sum_returns) +
        (lastD0 (dqAppend s.window s.prices p) /
          lastD0 (dqAppend s.window s.prices p).dropLast - 1) := by
  simp only [update]
  rw [if_pos h]

lemma update_sum_returns_neg (s : RealTimeAnalytics) (p : ℚ)
    (h : ¬ 1 < (dqAppend s.window s.prices p).length) :
    (update s p).sum_returns = s.sum_returns := by
  simp only [update]
  rw [if_neg h]

/-! ### The reachable-state characterization -/

/-- Full description of the state reached from a fresh window-w
instance by the updates for ps in order: the price buffer holds the
last w prices, the return buffer holds the last w consecutive-pair
returns (none at all when w = 1, where the previous price is evicted
before the length check runs), and both running sums agree with
their buffers. -/
def BufRep (w : ℕ) (ps : List ℚ) (s : RealTimeAnalytics) : Prop :=
  s.window = w ∧
  s.prices = lastN w ps ∧
  s.returns = (if w = 1 then [] else lastN w (retSeq ps)) ∧
  s.sum_prices = s.prices.sum ∧
  s.sum_returns = s.returns.sum

lemma rep_step {w : ℕ} (hw : 1 ≤ w) {ps : List ℚ} {s : RealTimeAnalytics}
    (h : BufRep w ps s) (p : ℚ) : BufRep w (ps ++ [p]) (update s p) := by
  obtain ⟨hwin, hpr, hret, hsp, hsr⟩ := h
  have hplen : s.prices.length = min ps.length w := by rw [hpr, length_lastN]
  have hprles : s.prices.length ≤ w := by omega
  have hprlen : (dqAppend s.window s.prices p).length = min (s.prices.length + 1) w := by
    rw [hwin]
    exact length_dqAppend hw hprles p
  have hpr' : dqAppend s.window s.prices p = lastN w (ps ++ [p]) := by
    rw [hwin, hpr]
    exact dqAppend_lastN hw ps p
  have hretlen : s.returns.length ≤ w := by
    rcases eq_or_ne w 1 with h1 | h1
    · rw [hret, if_pos h1]; simp
    · rw [hret, if_neg h1, length_lastN]; omega
  refine ⟨?_, ?_, ?_, ?_, ?_⟩
  · rw [update_window, hwin]
  · rw [update_prices, hpr']
  · by_cases hcase : 1 < (dqAppend s.window s.prices p).length
    · have hw2 : 2 ≤ w := by rw [hprlen] at hcase; omega
    -- with two or more live prices the window is at least 2 and ps is nonempty
      have hn1 : 1 ≤ ps.length := by rw [hprlen] at hcase; omega
      have hpsne : ps ≠ [] := by
        intro hnil
        rw [hnil] at hn1
        simp at hn1
      have hw1 : ¬ w = 1 := by omega
      have hlastp : lastD0 (dqAppend s.window s.prices p) = p := lastD0_dqAppend _ _ _
      have hlast2 : lastD0 (dqAppend s.window s.prices p).dropLast = lastD0 ps := by
        rw [hwin, dropLast_dqAppend]
        by_cases hc : s.prices.length = w
        · rw [if_pos hc, lastD0_tail (by omega), hpr]
          exact lastD0_lastN hw hpsne
        · rw [if_neg hc, hpr]
          exact lastD0_lastN hw hpsne
      rw [update_returns_pos s p hcase, hlastp, hlast2, if_neg hw1, hwin,
        retSeq_concat ps p hpsne, hret, if_neg hw1]
      exact dqAppend_lastN hw (retSeq ps) (p / lastD0 ps - 1)
    · rw [update_returns_neg s p hcase, hret]
      rw [hprlen] at hcase
      rcases eq_or_ne w 1 with h1 | h1
      · rw [if_pos h1, if_pos h1]
      · have hn0 : ps.length = 0 := by omega
        have hps : ps = [] := List.length_eq_zero.mp hn0
        subst hps
        rw [if_neg h1, if_neg h1]
        simp [retSeq, lastN_nil]
  · rw [update_sum_prices, update_prices, hwin, hsp, hpr]
    rw [dqAppend_sum hw p]
  · by_cases hcase : 1 < (dqAppend s.window s.prices p).length
    · rw [update_sum_returns_pos s p hcase, update_returns_pos s p hcase, hwin, hsr]
      rw [dqAppend_sum hw _]
    · rw [update_sum_returns_neg s p hcase, update_returns_neg s p hcase, hsr]

lemma run_concat (w : ℕ) (ps : List ℚ) (p : ℚ) :
    run w (ps ++ [p]) = update (run w ps) p := by
  simp [run, List.foldl_append]

lemma run_rep {w : ℕ} (hw : 1 ≤ w) (ps : List ℚ) : BufRep w ps (run w ps) := by
  induction ps using List.reverseRecOn with
  | nil =>
    refine ⟨rfl, ?_, ?_, rfl, rfl⟩
    · simp [run, init, lastN_nil]
    · simp [run, init, retSeq, lastN_nil]
  | append_singleton l a ih =>
    rw [run_concat]
    exact rep_step hw ih a

lemma run_window {w : ℕ} (hw : 1 ≤ w) (ps : List ℚ) : (run w ps).window = w :=
  (run_rep hw ps).1

lemma run_prices {w : ℕ} (hw : 1 ≤ w) (ps : List ℚ) : (run w ps).prices = lastN w ps :=
  (run_rep hw ps).2.1

lemma run_returns {w : ℕ} (hw : 2 ≤ w) (ps : List ℚ) :
    (run w ps).returns = lastN w (retSeq ps) := by
  have h := (run_rep (by omega : 1 ≤ w) ps).2.2.1
  rw [if_neg (by omega : ¬ w = 1)] at h
  exact h

lemma run_returns_one (ps : List ℚ) : (run 1 ps).returns = [] := by
  have h := (run_rep (le_refl 1) ps).2.2.1
  rw [if_pos rfl] at h
  exact h

lemma run_sum_prices {w : ℕ} (hw : 1 ≤ w) (ps : List ℚ) :
    (run w ps).sum_prices = (run w ps).prices.sum :=
  (run_rep hw ps).2.2.2.1

lemma run_sum_returns {w : ℕ} (hw : 1 ≤ w) (ps : List ℚ) :
    (run w ps).sum_returns = (run w ps).returns.sum :=
  (run_rep hw ps).2.2.2.2

/-! ### Statistics helpers -/

lemma npVarSample_nonneg {xs : List ℚ} (h : 2 ≤ xs.length) : 0 ≤ npVarSample xs := by
  unfold npVarSample
  apply div_nonneg
  · apply List.sum_nonneg
    intro x hx
    simp only [List.mem_map] at hx
    obtain ⟨y, _, rfl⟩ := hx
    positivity
  · have h2 : (2 : ℚ) ≤ (xs.length : ℚ) := by exact_mod_cast h
    linarith

lemma npStdSample_eq_zero_iff {xs : List ℚ} (h : 2 ≤ xs.length) :
    npStdSample xs = 0 ↔ npVarSample xs = 0 := by
  have h0 : (0 : ℝ) ≤ ((npVarSample xs : ℚ) : ℝ) := by exact_mod_cast npVarSample_nonneg h
  unfold npStdSample
  rw [Real.sqrt_eq_zero']
  constructor
  · intro hle
    have hz : ((npVarSample xs : ℚ) : ℝ) = 0 := le_antisymm hle h0
    exact_mod_cast hz
  · intro hv
    rw [hv]
    simp

lemma npMean_replicate {k : ℕ} (hk : 1 ≤ k) (a : ℚ) :
    npMean (List.replicate k a) = a := by
  have hkq : (k : ℚ) ≠ 0 := Nat.cast_ne_zero.mpr (by omega)
  unfold npMean
  rw [List.sum_replicate, List.length_replicate, nsmul_eq_mul, mul_comm, mul_div_assoc,
    div_self hkq, mul_one]

lemma npVarSample_replicate {k : ℕ} (hk : 1 ≤ k) (a : ℚ) :
    npVarSample (List.replicate k a) = 0 := by
  unfold npVarSample
  rw [npMean_replicate hk, List.map_replicate]
  simp

lemma sum_map_sub (xs : List ℚ) (a : ℚ) :
    (xs.map (fun x => x - a)).sum = xs.sum - xs.length * a := by
  induction xs with
  | nil => simp
  | cons x t ih =>
    simp only [List.map_cons, List.sum_cons, List.length_cons, ih, Nat.cast_add, Nat.cast_one]
    ring

lemma npMean_map_sub {xs : List ℚ} (h : xs ≠ []) (a : ℚ) :
    npMean (xs.map (fun x => x - a)) = npMean xs - a := by
  have hn : (xs.length : ℚ) ≠ 0 := Nat.cast_ne_zero.mpr (by
    intro h0
    exact h (List.length_eq_zero.mp h0))
  unfold npMean
  rw [List.length_map, sum_map_sub]
  field_simp

lemma npVarSample_map_sub {xs : List ℚ} (h : xs ≠ []) (a : ℚ) :
    npVarSample (xs.map (fun x => x - a)) = npVarSample xs := by
  unfold npVarSample
  rw [List.length_map, npMean_map_sub h a, List.map_map]
  have hfun : ((fun x => (x - (npMean xs - a)) ^ 2) ∘ fun x => x - a)
      = fun x => (x - npMean xs) ^ 2 := by
    funext x
    simp only [Function.comp_apply]
    ring
  rw [hfun]

/-! ### Branch-level description of the three query methods -/

lemma mean_price_eq_npMean {s : RealTimeAnalytics} (hs : s.sum_prices = s.prices.sum)
    (h : s.prices ≠ []) : mean_price s = some (npMean s.prices) := by
  unfold mean_price npMean
  rw [if_neg h, hs]

lemma volatility_eq (s : RealTimeAnalytics) :
    volatility s =
      if 2 ≤ s.returns.length
      then some (Real.sqrt ((npVarSample s.returns : ℚ) : ℝ) * Real.sqrt 252)
      else none := by
  unfold volatility npStdSample
  by_cases h : s.returns.length < 2
  · rw [if_pos h, if_neg (by omega)]
  · rw [if_neg h, if_pos (by omega)]

lemma sharpe_eq (s : RealTimeAnalytics) (rf : ℚ) :
    sharpe s rf =
      if 2 ≤ s.returns.length then
        (if npVarSample (excessOf s rf) = 0 then none
         else some (Real.sqrt 252 * ((npMean (excessOf s rf) : ℚ) : ℝ) /
           npStdSample (excessOf s rf)))
      else none := by
  simp only [sharpe]
  by_cases h : s.returns.length < 2
  · rw [if_pos h, if_neg (show ¬ 2 ≤ s.returns.length by omega)]
  · rw [if_neg h, if_pos (show 2 ≤ s.returns.length by omega)]
    have hlen : 2 ≤ (excessOf s rf).length := by
      unfold excessOf
      rw [List.length_map]
      omega
    by_cases hv : npVarSample (excessOf s rf) = 0
    · rw [if_pos hv, if_pos ((npStdSample_eq_zero_iff hlen).mpr hv)]
    · rw [if_neg hv, if_neg (fun hs => hv ((npStdSample_eq_zero_iff hlen).mp hs))]

/-! ### Claims -/

/-- Claim C1: for every window size W of at least 1 and after every
finite sequence of update(price) calls, the running price sum equals
the sum of the elements currently in the price buffer and the running
return sum equals the sum of the elements currently in the return
buffer (exact equality; the model arithmetic is exact). -/
theorem C1_running_sum_invariant (w : ℕ) (ps : List ℚ) (hw : 1 ≤ w) :
    (run w ps).sum_prices = (run w ps).prices.sum ∧
    (run w ps).sum_returns = (run w ps).returns.sum :=
  ⟨run_sum_prices hw ps, run_sum_returns hw ps⟩

/-- Witness for C1 at window 3 and the price sequence of the spec
scenario. -/
theorem C1_witness :
    1 ≤ 3 ∧
    ((run 3 [100, 102, 101, 105]).sum_prices = (run 3 [100, 102, 101, 105]).prices.sum ∧
     (run 3 [100, 102, 101, 105]).sum_returns = (run 3 [100, 102, 101, 105]).returns.sum) :=
  ⟨by decide, C1_running_sum_invariant 3 [100, 102, 101, 105] (by decide)⟩

/-- Claim C2: for every window size W of at least 1 and nonempty
price sequence of length n, after all updates the price buffer holds
exactly the last min(n, W) prices in arrival order, and mean_price
returns their arithmetic mean. -/
theorem C2_sliding_window_mean (w : ℕ) (ps : List ℚ) (hw : 1 ≤ w) (hps : ps ≠ []) :
    (run w ps).prices = ps.drop (ps.length - w) ∧
    (run w ps).prices.length = min ps.length w ∧
    mean_price (run w ps) = some (npMean (ps.drop (ps.length - w))) := by
  have hpr := run_prices hw ps
  have hne : lastN w ps ≠ [] := by
    intro hnil
    have hlen := length_lastN w ps
    rw [hnil] at hlen
    simp only [List.length_nil] at hlen
    have hpos : 0 < ps.length := List.length_pos.mpr hps
    omega
  refine ⟨hpr, ?_, ?_⟩
  · rw [hpr, length_lastN]
  · rw [mean_price_eq_npMean (run_sum_prices hw ps) (by rw [hpr]; exact hne), hpr]
    rfl

/-- Witness for C2 at window 3 and the four-price spec scenario. -/
theorem C2_witness :
    1 ≤ 3 ∧ ([100, 102, 101, 105] : List ℚ) ≠ [] ∧
    ((run 3 [100, 102, 101, 105]).prices
        = ([100, 102, 101, 105] : List ℚ).drop (([100, 102, 101, 105] : List ℚ).length - 3) ∧
     (run 3 [100, 102, 101, 105]).prices.length = min ([100, 102, 101, 105] : List ℚ).length 3 ∧
     mean_price (run 3 [100, 102, 101, 105])
        = some (npMean (([100, 102, 101, 105] : List ℚ).drop
            (([100, 102, 101, 105] : List ℚ).length - 3)))) :=
  ⟨by decide, by decide, C2_sliding_window_mean 3 [100, 102, 101, 105] (by decide) (by decide)⟩

/-- Counterexample to claim C3 as stated: it quantifies over every
window size W of at least 1, but at W = 1 the second update call,
which is not the first-ever observation, computes no return at all
(after the append the price deque holds a single element, so the
length check fails), leaving the return buffer empty where the claim
predicts min(2 - 1, 1) = 1 stored return. -/
theorem C3_counterexample :
    ¬ ((run 1 [1, 2]).returns.length = min (2 - 1) 1) := by
  rw [run_returns_one]
  simp

/-- Claim C3 amended to window sizes of at least 2 (for W = 1 the
previous price is already evicted when the length check runs and no
return is ever computed): every update call past the first computes
the simple return p / previous - 1 from the immediately preceding
arrival and appends it under the capacity-W eviction policy, so
after n updates, n at least 2, the return buffer holds exactly the
last min(n - 1, W) arrival-order consecutive-pair returns. -/
theorem C3_returns_window (w : ℕ) (ps : List ℚ) (hw : 2 ≤ w) (hn : 2 ≤ ps.length) :
    (run w ps).returns = (retSeq ps).drop ((retSeq ps).length - w) ∧
    (run w ps).returns.length = min (ps.length - 1) w ∧
    (∀ p, (update (run w ps) p).returns
        = dqAppend w (run w ps).returns (p / lastD0 ps - 1)) := by
  have hw1 : 1 ≤ w := by omega
  have hpsne : ps ≠ [] := by
    intro h0
    rw [h0] at hn
    simp at hn
  have h1 : (run w ps).returns = lastN w (retSeq ps) := run_returns hw ps
  refine ⟨h1, ?_, ?_⟩
  · rw [h1, length_lastN, length_retSeq]
  · intro p
    have h2 : (run w (ps ++ [p])).returns = lastN w (retSeq (ps ++ [p])) :=
      run_returns hw (ps ++ [p])
    rw [run_concat] at h2
    rw [h2, retSeq_concat ps p hpsne, ← dqAppend_lastN hw1, ← h1]

/-- Witness for the amended C3 at window 2 and three prices. -/
theorem C3_witness :
    2 ≤ 2 ∧ 2 ≤ ([100, 102, 101] : List ℚ).length ∧
    ((run 2 [100, 102, 101]).returns
        = (retSeq [100, 102, 101]).drop ((retSeq [100, 102, 101]).length - 2) ∧
     (run 2 [100, 102, 101]).returns.length = min (([100, 102, 101] : List ℚ).length - 1) 2 ∧
     (∀ p, (update (run 2 [100, 102, 101]) p).returns
        = dqAppend 2 (run 2 [100, 102, 101]).returns (p / lastD0 [100, 102, 101] - 1))) :=
  ⟨by decide, by decide, C3_returns_window 2 [100, 102, 101] (by decide) (by decide)⟩

lemma npVarSample_nonneg_all (xs : List ℚ) : 0 ≤ npVarSample xs := by
  rcases xs with _ | ⟨a, _ | ⟨b, t⟩⟩
  · simp [npVarSample]
  · simp [npVarSample, npMean]
  · exact npVarSample_nonneg (by simp only [List.length_cons]; omega)

lemma npStdSample_eq_zero_iff_all (xs : List ℚ) :
    npStdSample xs = 0 ↔ npVarSample xs = 0 := by
  have h0 : (0 : ℝ) ≤ ((npVarSample xs : ℚ) : ℝ) := by exact_mod_cast npVarSample_nonneg_all xs
  unfold npStdSample
  rw [Real.sqrt_eq_zero']
  constructor
  · intro hle
    have hz : ((npVarSample xs : ℚ) : ℝ) = 0 := le_antisymm hle h0
    exact_mod_cast hz
  · intro hv
    rw [hv]
    simp

/-- Claim C4: sharpe(risk_free) returns the undefined sentinel
exactly when the return buffer holds fewer than 2 elements or the
Bessel-corrected sample standard deviation of the excess series
(each r - risk_free/252) is exactly zero - the second conjunct
records that this standard deviation vanishes exactly when its
square, the sample variance, does - and otherwise returns
sqrt 252 * mean(excess) / stdev(excess). -/
theorem C4_sharpe_formula (s : RealTimeAnalytics) (rf : ℚ) :
    sharpe s rf =
      (if 2 ≤ s.returns.length then
        (if npVarSample (excessOf s rf) = 0 then none
         else some (Real.sqrt 252 * ((npMean (excessOf s rf) : ℚ) : ℝ) /
           npStdSample (excessOf s rf)))
       else none) ∧
    (npStdSample (excessOf s rf) = 0 ↔ npVarSample (excessOf s rf) = 0) :=
  ⟨sharpe_eq s rf, npStdSample_eq_zero_iff_all _⟩

/-- Claim C5: volatility() returns the undefined sentinel when the
return buffer holds fewer than 2 elements, and otherwise the
Bessel-corrected sample standard deviation of the return buffer (sum
of squared deviations over n - 1, square-rooted) times sqrt 252. -/
theorem C5_volatility_formula (s : RealTimeAnalytics) :
    volatility s =
      if 2 ≤ s.returns.length then
        some (Real.sqrt
            (((s.returns.map (fun r => (r - npMean s.returns) ^ 2)).sum /
              ((s.returns.length : ℚ) - 1) : ℚ) : ℝ) * Real.sqrt 252)
      else none := by
  rw [volatility_eq]
  rfl

/-- Claim C6: update is total and rejects nothing: whatever the
previous price (zero and negative included), the division result
p / previous - 1 is computed and stored as the newest element of the
return buffer under the usual eviction policy.  (The model arithmetic
is exact, so a zero previous price yields the rational p / 0 - 1 = -1
where numpy floats would yield an infinite value; either way the
update call raises nothing and stores the division result.) -/
theorem C6_update_never_rejects (s : RealTimeAnalytics) (p : ℚ)
    (hw : 2 ≤ s.window) (hp : s.prices ≠ []) :
    (update s p).returns = dqAppend s.window s.returns (p / lastD0 s.prices - 1) ∧
    lastD0 (update s p).returns = p / lastD0 s.prices - 1 := by
  have hplen : 0 < s.prices.length := List.length_pos.mpr hp
  have hlen : 1 < (dqAppend s.window s.prices p).length := by
    rw [dqAppend]
    by_cases hc : s.prices.length = s.window
    · rw [if_pos hc, List.length_append, List.length_tail]
      simp only [List.length_cons, List.length_nil]
      omega
    · rw [if_neg hc, List.length_append]
      simp only [List.length_cons, List.length_nil]
      omega
  have hlast : lastD0 (dqAppend s.window s.prices p) = p := lastD0_dqAppend _ _ _
  have hdrop : lastD0 (dqAppend s.window s.prices p).dropLast = lastD0 s.prices := by
    rw [dropLast_dqAppend]
    by_cases hc : s.prices.length = s.window
    · rw [if_pos hc]
      exact lastD0_tail (by omega)
    · rw [if_neg hc]
  constructor
  · rw [update_returns_pos s p hlen, hlast, hdrop]
  · rw [update_returns_pos s p hlen, hlast, hdrop, lastD0_dqAppend]

/-- Witness for C6 at a state whose single buffered price is zero:
the division by the zero previous price is not rejected and its
result is stored. -/
theorem C6_witness :
    2 ≤ (RealTimeAnalytics.mk 2 [0] [] 0 0).window ∧
    (RealTimeAnalytics.mk 2 [0] [] 0 0).prices ≠ [] ∧
    ((update (RealTimeAnalytics.mk 2 [0] [] 0 0) 5).returns
        = dqAppend (RealTimeAnalytics.mk 2 [0] [] 0 0).window
            (RealTimeAnalytics.mk 2 [0] [] 0 0).returns
            (5 / lastD0 (RealTimeAnalytics.mk 2 [0] [] 0 0).prices - 1) ∧
     lastD0 (update (RealTimeAnalytics.mk 2 [0] [] 0 0) 5).returns
        = 5 / lastD0 (RealTimeAnalytics.mk 2 [0] [] 0 0).prices - 1) :=
  ⟨by decide, by decide, C6_update_never_rejects _ 5 (by decide) (by decide)⟩

lemma retSeq_cons_replicate {c : ℚ} (hc : c ≠ 0) :
    ∀ k, retSeq (c :: List.replicate k c) = List.replicate k 0 := by
  intro k
  induction k with
  | zero => rfl
  | succ k ih =>
    rw [List.replicate_succ]
    simp only [retSeq]
    rw [ih, div_self hc, List.replicate_succ]
    norm_num

lemma retSeq_replicate {c : ℚ} (hc : c ≠ 0) {k : ℕ} (hk : 1 ≤ k) :
    retSeq (List.replicate k c) = List.replicate (k - 1) 0 := by
  cases k with
  | zero => exact absurd hk (by omega)
  | succ k =>
    rw [List.replicate_succ, retSeq_cons_replicate hc]
    congr 1

/-- Counterexample to claim C7 as stated: it covers every constant
price sequence of length at least 2, but the two-element sequence
[10, 10] produces a single return, so volatility() is the undefined
sentinel rather than the claimed defined value 0.0. -/
theorem C7_counterexample : volatility (run 2 [10, 10]) ≠ some 0 := by
  have h := run_returns (le_refl 2) [10, 10]
  have hlen : (run 2 [10, 10]).returns.length = 1 := by
    rw [h, length_lastN, length_retSeq]
    decide
  rw [volatility_eq, if_neg (by omega)]
  simp

/-- Claim C7 amended to constant sequences of length at least 3 of a
nonzero constant (two prices yield a single return, on which
volatility is still the undefined sentinel, and an all-zero sequence
divides zero by zero): every stored return is 0, volatility() is the
defined value 0, and sharpe(risk_free) is the undefined sentinel for
every risk-free rate, its zero-variance guard firing. -/
theorem C7_constant_prices (w n : ℕ) (c rf : ℚ)
    (hw : 2 ≤ w) (hn : 3 ≤ n) (hc : c ≠ 0) :
    (∀ r ∈ (run w (List.replicate n c)).returns, r = 0) ∧
    volatility (run w (List.replicate n c)) = some 0 ∧
    sharpe (run w (List.replicate n c)) rf = none := by
  have hm2 : 2 ≤ min (n - 1) w := by omega
  have hrs : retSeq (List.replicate n c) = List.replicate (n - 1) 0 :=
    retSeq_replicate hc (by omega)
  have hret : (run w (List.replicate n c)).returns = List.replicate (min (n - 1) w) 0 := by
    rw [run_returns hw, hrs, lastN, List.length_replicate, List.drop_replicate]
    congr 1
    omega
  refine ⟨?_, ?_, ?_⟩
  · intro r hr
    rw [hret] at hr
    exact List.eq_of_mem_replicate hr
  · rw [volatility_eq, hret, List.length_replicate, if_pos hm2,
      npVarSample_replicate (by omega)]
    simp
  · have hex : excessOf (run w (List.replicate n c)) rf
        = List.replicate (min (n - 1) w) (0 - rf / 252) := by
      unfold excessOf
      rw [hret, List.map_replicate]
    rw [sharpe_eq, hret, List.length_replicate, if_pos hm2, hex,
      if_pos (npVarSample_replicate (by omega) _)]

/-- Witness for the amended C7: window 2, four tens (the spec
scenario [10, 10, 10, 10]), risk-free rate 0.02. -/
theorem C7_witness :
    2 ≤ 2 ∧ 3 ≤ 4 ∧ (10 : ℚ) ≠ 0 ∧
    ((∀ r ∈ (run 2 (List.replicate 4 10)).returns, r = 0) ∧
     volatility (run 2 (List.replicate 4 10)) = some 0 ∧
     sharpe (run 2 (List.replicate 4 10)) (2 / 100) = none) :=
  ⟨by decide, by decide, by decide,
   C7_constant_prices 2 4 10 (2 / 100) (by decide) (by decide) (by decide)⟩

/-- Claim C8: an empty input price sequence makes process_stream
abort the whole run as a fatal error with the clear message the
source raises, before the accumulator is constructed or invoked; the
result is the bare error, so no partial output exists. -/
theorem C8_empty_input_fatal (w : ℕ) :
    process_stream w [] = Except.error "No data returned." := by
  simp [process_stream]

/-- Claim C9: the three query methods never mutate the accumulator
state (their state-transformer forms return the pre-state
unchanged, so any number of calls in any order leaves the window,
both buffers and both running sums intact), volatility and sharpe
are functions of the return buffer alone, and on reachable states
mean_price is a function of the price buffer alone. -/
theorem C9_queries_pure (s t : RealTimeAnalytics) (rf : ℚ) :
    (mean_price_call s).2 = s ∧
    (volatility_call s).2 = s ∧
    (sharpe_call s rf).2 = s ∧
    (s.returns = t.returns → volatility s = volatility t ∧ sharpe s rf = sharpe t rf) ∧
    (Reachable s → Reachable t → s.prices = t.prices → mean_price s = mean_price t) := by
  refine ⟨rfl, rfl, rfl, ?_, ?_⟩
  · intro hret
    constructor
    · unfold volatility npStdSample
      rw [hret]
    · simp only [sharpe, excessOf, hret]
  · intro hs ht hp
    obtain ⟨w1, ps1, hw1, rfl⟩ := hs
    obtain ⟨w2, ps2, hw2, rfl⟩ := ht
    unfold mean_price
    rw [run_sum_prices hw1, run_sum_prices hw2, hp]

/-- Witness for C9 at the reachable state reached by two updates
through window 2. -/
theorem C9_witness :
    Reachable (run 2 [1, 2]) ∧
    mean_price (run 2 [1, 2]) = mean_price (run 2 [1, 2]) :=
  ⟨⟨2, [1, 2], by decide, rfl⟩,
   (C9_queries_pure (run 2 [1, 2]) (run 2 [1, 2]) (2 / 100)).2.2.2.2
     ⟨2, [1, 2], by decide, rfl⟩ ⟨2, [1, 2], by decide, rfl⟩ rfl⟩

/-- Claim C10: with at least 2 stored returns, sharpe returns the
undefined sentinel for one risk-free rate exactly when it does for
any other: subtracting the constant rf/252 from every return leaves
the sample variance, hence the zero-variance guard, unchanged. -/
theorem C10_sharpe_guard_rf_independent (s : RealTimeAnalytics) (rf1 rf2 : ℚ)
    (h : 2 ≤ s.returns.length) :
    (sharpe s rf1 = none ↔ sharpe s rf2 = none) := by
  have hne : s.returns ≠ [] := by
    intro h0
    rw [h0] at h
    simp at h
  have key : ∀ rf : ℚ, npVarSample (excessOf s rf) = npVarSample s.returns := by
    intro rf
    unfold excessOf
    exact npVarSample_map_sub hne (rf / 252)
  rw [sharpe_eq s rf1, sharpe_eq s rf2, if_pos h, if_pos h, key rf1, key rf2]
  by_cases hv : npVarSample s.returns = 0
  · rw [if_pos hv, if_pos hv]
  · rw [if_neg hv, if_neg hv]
    simp

/-- Witness for C10 at a two-return state, risk-free rates 0 and 0.02. -/
theorem C10_witness :
    2 ≤ (RealTimeAnalytics.mk 5 [1, 2] [0, 1] 3 1).returns.length ∧
    (sharpe (RealTimeAnalytics.mk 5 [1, 2] [0, 1] 3 1) 0 = none ↔
     sharpe (RealTimeAnalytics.mk 5 [1, 2] [0, 1] 3 1) (2 / 100) = none) :=
  ⟨by decide,
   C10_sharpe_guard_rf_independent (RealTimeAnalytics.mk 5 [1, 2] [0, 1] 3 1) 0 (2 / 100)
     (by decide)⟩
